import Mathlib

/-!
Verification of the family-ontology query service and its Russian-language
command-line front end (`lab2/ontology_queries.py`, `lab2/main.py`).

The RDF graph is embedded shallowly as a list of triples over local names
(the program addresses every node through `base_ns[name]`, so one namespace
suffices).  A SPARQL `SELECT DISTINCT` over a fixed pattern becomes a filter
over the triple list followed by `dedup`; `ASK` becomes decidable membership;
Python `sorted(set(...))` becomes insertion sort over `dedup`, with a
kernel-computable lexicographic order `strLe` on strings.
-/

structure Triple where
  subj : String
  pred : String
  obj : String
deriving DecidableEq

abbrev Graph := List Triple

/-- Query `SELECT DISTINCT ?s WHERE { ?s <p> <o> }`: subjects of all `p`-edges into `o`. -/
def subjectsOf (g : Graph) (p o : String) : List String :=
  ((g.filter fun t => t.pred == p && t.obj == o).map Triple.subj).dedup

/-- Query `SELECT DISTINCT ?o WHERE { <s> <p> ?o }`: objects of all `p`-edges out of `s`. -/
def objectsOf (g : Graph) (s p : String) : List String :=
  ((g.filter fun t => t.subj == s && t.pred == p).map Triple.obj).dedup

/-- Lexicographic comparison of char lists by code point. -/
def lexLe : List Char → List Char → Bool
  | [], _ => true
  | _ :: _, [] => false
  | a :: as, b :: bs =>
    if a.toNat < b.toNat then true
    else if b.toNat < a.toNat then false
    else lexLe as bs

/-- Lexicographic order on strings (Python string comparison). -/
def strLe (a b : String) : Prop :=
  lexLe a.data b.data = true

instance : DecidableRel strLe :=
  fun a b => instDecidableEqBool (lexLe a.data b.data) true

theorem lexLe_total : ∀ as bs : List Char, lexLe as bs = true ∨ lexLe bs as = true
  | [], _ => Or.inl rfl
  | _ :: _, [] => Or.inr rfl
  | a :: as, b :: bs => by
    rcases Nat.lt_trichotomy a.toNat b.toNat with h | h | h
    · left
      simp [lexLe, h]
    · rcases lexLe_total as bs with ih | ih
      · left
        simp [lexLe, h, ih, Nat.lt_irrefl]
      · right
        simp [lexLe, h, ih, Nat.lt_irrefl]
    · right
      simp [lexLe, h]

theorem lexLe_trans : ∀ as bs cs : List Char,
    lexLe as bs = true → lexLe bs cs = true → lexLe as cs = true
  | [], _, _ => fun _ _ => rfl
  | _ :: _, [], _ => fun h _ => by simp [lexLe] at h
  | _ :: _, _ :: _, [] => fun _ h => by simp [lexLe] at h
  | a :: as, b :: bs, c :: cs => by
    intro h1 h2
    rcases Nat.lt_trichotomy a.toNat b.toNat with hab | hab | hab
    · rcases Nat.lt_trichotomy b.toNat c.toNat with hbc | hbc | hbc
      · simp [lexLe, Nat.lt_trans hab hbc]
      · simp [lexLe, hbc ▸ hab]
      · simp [lexLe, hab, Nat.lt_asymm hab, Nat.lt_irrefl] at h1 ⊢
        simp [lexLe, hbc, Nat.lt_asymm hbc, Nat.lt_irrefl] at h2
    · rcases Nat.lt_trichotomy b.toNat c.toNat with hbc | hbc | hbc
      · simp [lexLe, hab ▸ hbc]
      · have hac : a.toNat = c.toNat := hab.trans hbc
        simp [lexLe, hab, Nat.lt_irrefl] at h1
        simp [lexLe, hbc, Nat.lt_irrefl] at h2
        simp [lexLe, hac, Nat.lt_irrefl]
        exact lexLe_trans as bs cs h1 h2
      · simp [lexLe, hbc, Nat.lt_asymm hbc, Nat.lt_irrefl] at h2
    · simp [lexLe, hab, Nat.lt_asymm hab, Nat.lt_irrefl] at h1

instance : IsTotal String strLe :=
  ⟨fun a b => lexLe_total a.data b.data⟩

instance : IsTrans String strLe :=
  ⟨fun a b c => lexLe_trans a.data b.data c.data⟩

/-- Python `sorted(set(l))` on strings: deduplicate, then sort lexicographically. -/
def sortedSet (l : List String) : List String :=
  l.dedup.insertionSort strLe

/-- Predicate `is_female`: `ASK { <x> a onto:Female }`, sex encoded as a `type` triple. -/
def is_female (g : Graph) (x : String) : Bool :=
  decide (Triple.mk x "type" "Female" ∈ g)

/-- Predicate `is_male`: `ASK { <x> a onto:Male }`. -/
def is_male (g : Graph) (x : String) : Bool :=
  decide (Triple.mk x "type" "Male" ∈ g)

-- ---------- Base explicit relations (the `_explicit_*` queries) ----------

def explicit_parents_of (g : Graph) (x : String) : List String :=
  subjectsOf g "parentOf" x

def explicit_grandparents_of (g : Graph) (x : String) : List String :=
  subjectsOf g "grandparentOf" x

/-- Query `_explicit_grandchildren_of`: forward `grandparentOf` edges unioned with
inverse `grandsonOf` edges, returned as `sorted(set(...))`. -/
def explicit_grandchildren_of (g : Graph) (x : String) : List String :=
  sortedSet (objectsOf g x "grandparentOf" ++ subjectsOf g "grandsonOf" x)

def explicit_mother_of (g : Graph) (x : String) : List String :=
  subjectsOf g "motherOf" x

def explicit_father_of (g : Graph) (x : String) : List String :=
  subjectsOf g "fatherOf" x

/-- Query `_explicit_siblings_of`: `{ <x> sibling ?s } UNION { ?s sibling <x> }`,
distinct.  Note: no filter excludes `x` itself here. -/
def explicit_siblings_of (g : Graph) (x : String) : List String :=
  (objectsOf g x "sibling" ++ subjectsOf g "sibling" x).dedup

def explicit_brothers_of (g : Graph) (x : String) : List String :=
  subjectsOf g "brotherOf" x

def explicit_sisters_of (g : Graph) (x : String) : List String :=
  subjectsOf g "sisterOf" x

def explicit_aunts_for (g : Graph) (x : String) : List String :=
  subjectsOf g "auntFor" x

def explicit_uncles_for (g : Graph) (x : String) : List String :=
  subjectsOf g "uncleFor" x

def explicit_cousins_for (g : Graph) (x : String) : List String :=
  subjectsOf g "cousinFor" x

-- ---------- Inferred (manual) rules from base triples ----------

def children_of (g : Graph) (x : String) : List String :=
  objectsOf g x "parentOf"

def parents_of (g : Graph) (x : String) : List String :=
  explicit_parents_of g x

/-- Rule `grandparents_of`: explicit edges unioned with parents of parents. -/
def grandparents_of (g : Graph) (x : String) : List String :=
  sortedSet (explicit_grandparents_of g x ++
    (explicit_parents_of g x).flatMap fun p => explicit_parents_of g p)

/-- Rule `grandchildren_of`: explicit edges unioned with children of children. -/
def grandchildren_of (g : Graph) (x : String) : List String :=
  sortedSet (explicit_grandchildren_of g x ++
    (children_of g x).flatMap fun c => children_of g c)

/-- Rule `mother_of`: prefer explicit `motherOf` edges; otherwise filter the
explicit parents by female sex (the fallback list is not re-sorted). -/
def mother_of (g : Graph) (x : String) : List String :=
  let exp := explicit_mother_of g x
  if exp.isEmpty then (explicit_parents_of g x).filter (fun p => is_female g p)
  else sortedSet exp

/-- Rule `father_of`: prefer explicit `fatherOf` edges; otherwise filter the
explicit parents by male sex. -/
def father_of (g : Graph) (x : String) : List String :=
  let exp := explicit_father_of g x
  if exp.isEmpty then (explicit_parents_of g x).filter (fun p => is_male g p)
  else sortedSet exp

/-- The inferred-sibling query:
`?s childOf ?p . <x> childOf ?p . FILTER (?s != <x>)`. -/
def inferred_siblings_of (g : Graph) (x : String) : List String :=
  (((objectsOf g x "childOf").flatMap fun p => subjectsOf g "childOf" p).filter
    (fun s => s != x)).dedup

def siblings_of (g : Graph) (x : String) : List String :=
  sortedSet (explicit_siblings_of g x ++ inferred_siblings_of g x)

def brothers_of (g : Graph) (x : String) : List String :=
  sortedSet (explicit_brothers_of g x ++
    (siblings_of g x).filter (fun s => is_male g s))

def sisters_of (g : Graph) (x : String) : List String :=
  sortedSet (explicit_sisters_of g x ++
    (siblings_of g x).filter (fun s => is_female g s))

def aunts_for (g : Graph) (x : String) : List String :=
  sortedSet (explicit_aunts_for g x ++
    (explicit_parents_of g x).flatMap fun p =>
      (siblings_of g p).filter (fun s => is_female g s))

def uncles_for (g : Graph) (x : String) : List String :=
  sortedSet (explicit_uncles_for g x ++
    (explicit_parents_of g x).flatMap fun p =>
      (siblings_of g p).filter (fun s => is_male g s))

def cousins_for (g : Graph) (x : String) : List String :=
  sortedSet (explicit_cousins_for g x ++
    (explicit_parents_of g x).flatMap fun p =>
      (siblings_of g p).flatMap fun s => children_of g s)

def male_cousins_for (g : Graph) (x : String) : List String :=
  (cousins_for g x).filter (fun c => is_male g c)

-- ---------- Membership characterisations of the query helpers ----------

theorem mem_subjectsOf {g : Graph} {p o y : String} :
    y ∈ subjectsOf g p o ↔ Triple.mk y p o ∈ g := by
  simp only [subjectsOf, List.mem_dedup, List.mem_map, List.mem_filter,
    Bool.and_eq_true, beq_iff_eq]
  constructor
  · rintro ⟨t, ⟨hg, hp, ho⟩, hs⟩
    cases t
    simp only at hp ho hs
    subst hp; subst ho; subst hs
    exact hg
  · intro hg
    exact ⟨⟨y, p, o⟩, ⟨hg, rfl, rfl⟩, rfl⟩

theorem mem_objectsOf {g : Graph} {s p y : String} :
    y ∈ objectsOf g s p ↔ Triple.mk s p y ∈ g := by
  simp only [objectsOf, List.mem_dedup, List.mem_map, List.mem_filter,
    Bool.and_eq_true, beq_iff_eq]
  constructor
  · rintro ⟨t, ⟨hg, hs, hp⟩, ho⟩
    cases t
    simp only at hp hs ho
    subst hp; subst hs; subst ho
    exact hg
  · intro hg
    exact ⟨⟨s, p, y⟩, ⟨hg, rfl, rfl⟩, rfl⟩

theorem mem_sortedSet {l : List String} {y : String} :
    y ∈ sortedSet l ↔ y ∈ l := by
  rw [sortedSet, (List.perm_insertionSort strLe l.dedup).mem_iff, List.mem_dedup]

theorem sortedSet_nodup (l : List String) : (sortedSet l).Nodup :=
  (List.perm_insertionSort strLe l.dedup).nodup_iff.mpr (List.nodup_dedup l)

theorem sortedSet_sorted (l : List String) : List.Sorted strLe (sortedSet l) :=
  List.sorted_insertionSort strLe l.dedup

theorem sortedSet_nil : sortedSet [] = [] := rfl

theorem subjectsOf_eq_nil {g : Graph} {p x : String}
    (h : ∀ t ∈ g, t.obj ≠ x) : subjectsOf g p x = [] := by
  have hf : g.filter (fun t => t.pred == p && t.obj == x) = [] := by
    rw [List.filter_eq_nil_iff]
    intro t ht
    simp only [Bool.and_eq_true, beq_iff_eq, not_and]
    exact fun _ => h t ht
  simp [subjectsOf, hf]

theorem objectsOf_eq_nil {g : Graph} {x p : String}
    (h : ∀ t ∈ g, t.subj ≠ x) : objectsOf g x p = [] := by
  have hf : g.filter (fun t => t.subj == x && t.pred == p) = [] := by
    rw [List.filter_eq_nil_iff]
    intro t ht
    simp only [Bool.and_eq_true, beq_iff_eq, not_and]
    exact fun hs => absurd hs (h t ht)
  simp [objectsOf, hf]

/-- Membership characterisation of `siblings_of`: an explicit `sibling` edge in
either direction, or a shared parent via two `childOf` edges with the
not-equal filter. -/
theorem mem_siblings_of {g : Graph} {x s : String} :
    s ∈ siblings_of g x ↔
      Triple.mk x "sibling" s ∈ g ∨ Triple.mk s "sibling" x ∈ g ∨
      (s ≠ x ∧ ∃ q, Triple.mk s "childOf" q ∈ g ∧ Triple.mk x "childOf" q ∈ g) := by
  simp only [siblings_of, mem_sortedSet, List.mem_append, explicit_siblings_of,
    inferred_siblings_of, List.mem_dedup, List.mem_filter, List.mem_flatMap,
    mem_objectsOf, mem_subjectsOf, bne_iff_ne, ne_eq]
  tauto

-- ---------- Claim theorems: ontology store ----------

/-- C1: `mother_of` prefers explicit `motherOf` edges and otherwise returns
exactly the explicit `parentOf`-parents whose asserted sex is Female. -/
theorem mother_of_spec (g : Graph) (x y : String) :
    y ∈ mother_of g x ↔
      ((∃ m, Triple.mk m "motherOf" x ∈ g) ∧ Triple.mk y "motherOf" x ∈ g) ∨
      ((¬ ∃ m, Triple.mk m "motherOf" x ∈ g) ∧
        Triple.mk y "parentOf" x ∈ g ∧ is_female g y = true) := by
  have hexp : ∀ m, m ∈ explicit_mother_of g x ↔ Triple.mk m "motherOf" x ∈ g :=
    fun m => mem_subjectsOf
  cases hE : (explicit_mother_of g x).isEmpty with
  | true =>
    have hnil : explicit_mother_of g x = [] := List.isEmpty_iff.mp hE
    have hne : ¬ ∃ m, Triple.mk m "motherOf" x ∈ g := by
      rintro ⟨m, hm⟩
      have := (hexp m).mpr hm
      rw [hnil] at this
      exact absurd this (List.not_mem_nil m)
    simp only [mother_of, hE, if_true, List.mem_filter, explicit_parents_of,
      mem_subjectsOf]
    tauto
  | false =>
    have hnn : explicit_mother_of g x ≠ [] := by
      intro hh
      rw [hh] at hE
      simp at hE
    have hne : ∃ m, Triple.mk m "motherOf" x ∈ g := by
      obtain ⟨m, hm⟩ := List.exists_mem_of_ne_nil _ hnn
      exact ⟨m, (hexp m).mp hm⟩
    simp only [mother_of, hE, Bool.false_eq_true, if_false, mem_sortedSet, hexp]
    tauto

/-- C2: `grandparents_of` is the union of explicit `grandparentOf` edges and
parents of parents computed from explicit `parentOf` edges. -/
theorem grandparents_of_spec (g : Graph) (x y : String) :
    y ∈ grandparents_of g x ↔
      Triple.mk y "grandparentOf" x ∈ g ∨
      ∃ p, Triple.mk p "parentOf" x ∈ g ∧ Triple.mk y "parentOf" p ∈ g := by
  simp only [grandparents_of, mem_sortedSet, List.mem_append, List.mem_flatMap,
    explicit_grandparents_of, explicit_parents_of, mem_subjectsOf]

/-- C10: `grandchildren_of` unions forward explicit `grandparentOf` edges,
inverse explicit `grandsonOf` edges, and children of children, deduplicated. -/
theorem grandchildren_of_spec (g : Graph) (x : String) :
    (grandchildren_of g x).Nodup ∧
    ∀ c, c ∈ grandchildren_of g x ↔
      Triple.mk x "grandparentOf" c ∈ g ∨ Triple.mk c "grandsonOf" x ∈ g ∨
      ∃ p, Triple.mk x "parentOf" p ∈ g ∧ Triple.mk p "parentOf" c ∈ g := by
  refine ⟨sortedSet_nodup _, fun c => ?_⟩
  simp only [grandchildren_of, explicit_grandchildren_of, children_of,
    mem_sortedSet, List.mem_append, List.mem_flatMap, mem_subjectsOf,
    mem_objectsOf]
  tauto

/-- C4 counterexample: a reflexive `sibling` triple makes `siblings_of`
return the individual itself, because the explicit-sibling query has no
inequality filter. -/
theorem siblings_of_self_counterexample :
    "a" ∈ siblings_of [Triple.mk "a" "sibling" "a"] "a" := by decide

/-- C4 (amended): `siblings_of x` never contains `x` itself, provided the
ontology stores no reflexive `sibling` edge on `x`. -/
theorem siblings_of_no_self (g : Graph) (x : String)
    (h : Triple.mk x "sibling" x ∉ g) : x ∉ siblings_of g x := by
  intro hx
  rw [mem_siblings_of] at hx
  rcases hx with h1 | h1 | ⟨hne, _⟩
  · exact h h1
  · exact h h1
  · exact hne rfl

theorem siblings_of_no_self_witness :
    Triple.mk "a" "sibling" "a" ∉ ([Triple.mk "b" "sibling" "a"] : Graph) ∧
    "a" ∉ siblings_of [Triple.mk "b" "sibling" "a"] "a" :=
  ⟨by decide, siblings_of_no_self [Triple.mk "b" "sibling" "a"] "a" (by decide)⟩

/-- C5 counterexample: `parents_of` returns the explicit-parent query rows in
graph order without sorting, so with the `b` edge stored before the `a` edge
the result is not lexicographically sorted. -/
theorem parents_of_unsorted_counterexample :
    ¬ List.Sorted strLe
      (parents_of [Triple.mk "b" "parentOf" "x", Triple.mk "a" "parentOf" "x"] "x") := by
  decide

theorem mother_of_nodup (g : Graph) (x : String) : (mother_of g x).Nodup := by
  simp only [mother_of]
  split
  · exact (List.nodup_dedup _).filter _
  · exact sortedSet_nodup _

theorem father_of_nodup (g : Graph) (x : String) : (father_of g x).Nodup := by
  simp only [father_of]
  split
  · exact (List.nodup_dedup _).filter _
  · exact sortedSet_nodup _

/-- C5 (amended): every relation query returns a duplicate-free list; all of
them except `parents_of`, `children_of` and the sex-filter fallback of
`mother_of`/`father_of` are additionally sorted lexicographically. -/
theorem queries_nodup_and_sorted (g : Graph) (x : String) :
    (parents_of g x).Nodup ∧ (children_of g x).Nodup ∧
    (mother_of g x).Nodup ∧ (father_of g x).Nodup ∧
    (siblings_of g x).Nodup ∧ List.Sorted strLe (siblings_of g x) ∧
    (brothers_of g x).Nodup ∧ List.Sorted strLe (brothers_of g x) ∧
    (sisters_of g x).Nodup ∧ List.Sorted strLe (sisters_of g x) ∧
    (grandparents_of g x).Nodup ∧ List.Sorted strLe (grandparents_of g x) ∧
    (grandchildren_of g x).Nodup ∧ List.Sorted strLe (grandchildren_of g x) ∧
    (aunts_for g x).Nodup ∧ List.Sorted strLe (aunts_for g x) ∧
    (uncles_for g x).Nodup ∧ List.Sorted strLe (uncles_for g x) ∧
    (cousins_for g x).Nodup ∧ List.Sorted strLe (cousins_for g x) ∧
    (male_cousins_for g x).Nodup ∧ List.Sorted strLe (male_cousins_for g x) :=
  ⟨List.nodup_dedup _, List.nodup_dedup _, mother_of_nodup g x, father_of_nodup g x,
   sortedSet_nodup _, sortedSet_sorted _, sortedSet_nodup _, sortedSet_sorted _,
   sortedSet_nodup _, sortedSet_sorted _, sortedSet_nodup _, sortedSet_sorted _,
   sortedSet_nodup _, sortedSet_sorted _, sortedSet_nodup _, sortedSet_sorted _,
   sortedSet_nodup _, sortedSet_sorted _, sortedSet_nodup _, sortedSet_sorted _,
   (sortedSet_nodup _).filter _, (sortedSet_sorted _).filter _⟩

/-- The cousin rule exactly as the specification words it: the sibling step
may also go through a shared parent expressed with `parentOf` edges. -/
def spec_cousins_for (g : Graph) (x c : String) : Prop :=
  Triple.mk c "cousinFor" x ∈ g ∨
  ∃ p s, Triple.mk p "parentOf" x ∈ g ∧
    (Triple.mk p "sibling" s ∈ g ∨ Triple.mk s "sibling" p ∈ g ∨
      ∃ q, Triple.mk q "parentOf" s ∈ g ∧ Triple.mk q "parentOf" p ∈ g) ∧
    Triple.mk s "parentOf" c ∈ g

/-- A graph where the aunt-side sibling relation is witnessed only via shared
`parentOf` edges, never via `childOf` edges. -/
def cousinGap : Graph :=
  [Triple.mk "p" "parentOf" "x", Triple.mk "q" "parentOf" "s",
   Triple.mk "q" "parentOf" "p", Triple.mk "s" "parentOf" "c"]

/-- C3 counterexample: the code's sibling inference reads `childOf` triples,
not `parentOf` triples, so a cousin reachable only through a shared
`parentOf`-parent is missed. -/
theorem cousins_for_spec_counterexample :
    spec_cousins_for cousinGap "x" "c" ∧ "c" ∉ cousins_for cousinGap "x" :=
  ⟨Or.inr ⟨"p", "s", by decide, Or.inr (Or.inr ⟨"q", by decide, by decide⟩),
    by decide⟩, by decide⟩

/-- C3 (amended): `cousins_for` unions explicit `cousinFor` edges with
children of the parent's siblings, where siblings come from explicit
`sibling` edges in either direction or from shared `childOf` edges (with the
sibling required to differ from the parent). -/
theorem cousins_for_characterization (g : Graph) (x c : String) :
    c ∈ cousins_for g x ↔
      Triple.mk c "cousinFor" x ∈ g ∨
      ∃ p s, Triple.mk p "parentOf" x ∈ g ∧
        (Triple.mk p "sibling" s ∈ g ∨ Triple.mk s "sibling" p ∈ g ∨
          (s ≠ p ∧ ∃ q, Triple.mk s "childOf" q ∈ g ∧ Triple.mk p "childOf" q ∈ g)) ∧
        Triple.mk s "parentOf" c ∈ g := by
  simp only [cousins_for, mem_sortedSet, List.mem_append, List.mem_flatMap,
    explicit_cousins_for, explicit_parents_of, children_of, mem_subjectsOf,
    mem_objectsOf, mem_siblings_of]
  constructor
  · rintro (hc | ⟨p, hp, s, hsib, hch⟩)
    · exact Or.inl hc
    · exact Or.inr ⟨p, s, hp, hsib, hch⟩
  · rintro (hc | ⟨p, s, hp, hsib, hch⟩)
    · exact Or.inl hc
    · exact Or.inr ⟨p, hp, s, hsib, hch⟩

/-- C6: a name that appears in no triple gives the empty answer for every
relation query. -/
theorem unknown_individual_empty (g : Graph) (x : String)
    (h : ∀ t ∈ g, t.subj ≠ x ∧ t.obj ≠ x) :
    parents_of g x = [] ∧ children_of g x = [] ∧ mother_of g x = [] ∧
    father_of g x = [] ∧ siblings_of g x = [] ∧ brothers_of g x = [] ∧
    sisters_of g x = [] ∧ grandparents_of g x = [] ∧
    grandchildren_of g x = [] ∧ aunts_for g x = [] ∧ uncles_for g x = [] ∧
    cousins_for g x = [] ∧ male_cousins_for g x = [] := by
  have hs : ∀ p, subjectsOf g p x = [] :=
    fun p => subjectsOf_eq_nil (fun t ht => (h t ht).2)
  have ho : ∀ p, objectsOf g x p = [] :=
    fun p => objectsOf_eq_nil (fun t ht => (h t ht).1)
  have hsib : siblings_of g x = [] := by
    simp [siblings_of, explicit_siblings_of, inferred_siblings_of, hs, ho,
      sortedSet_nil]
  have hcous : cousins_for g x = [] := by
    simp [cousins_for, explicit_cousins_for, explicit_parents_of, hs,
      sortedSet_nil]
  refine ⟨hs "parentOf", ho "parentOf", ?_, ?_, hsib, ?_, ?_, ?_, ?_, ?_, ?_,
    hcous, ?_⟩
  · simp [mother_of, explicit_mother_of, explicit_parents_of, hs]
  · simp [father_of, explicit_father_of, explicit_parents_of, hs]
  · simp [brothers_of, explicit_brothers_of, hs, hsib, sortedSet_nil]
  · simp [sisters_of, explicit_sisters_of, hs, hsib, sortedSet_nil]
  · simp [grandparents_of, explicit_grandparents_of, explicit_parents_of, hs,
      sortedSet_nil]
  · simp [grandchildren_of, explicit_grandchildren_of, children_of, hs, ho,
      sortedSet_nil]
  · simp [aunts_for, explicit_aunts_for, explicit_parents_of, hs, sortedSet_nil]
  · simp [uncles_for, explicit_uncles_for, explicit_parents_of, hs, sortedSet_nil]
  · simp [male_cousins_for, hcous]

theorem unknown_individual_empty_witness :
    (∀ t ∈ ([Triple.mk "a" "parentOf" "b"] : Graph),
      t.subj ≠ "c" ∧ t.obj ≠ "c") ∧
    (parents_of [Triple.mk "a" "parentOf" "b"] "c" = [] ∧
      children_of [Triple.mk "a" "parentOf" "b"] "c" = [] ∧
      mother_of [Triple.mk "a" "parentOf" "b"] "c" = [] ∧
      father_of [Triple.mk "a" "parentOf" "b"] "c" = [] ∧
      siblings_of [Triple.mk "a" "parentOf" "b"] "c" = [] ∧
      brothers_of [Triple.mk "a" "parentOf" "b"] "c" = [] ∧
      sisters_of [Triple.mk "a" "parentOf" "b"] "c" = [] ∧
      grandparents_of [Triple.mk "a" "parentOf" "b"] "c" = [] ∧
      grandchildren_of [Triple.mk "a" "parentOf" "b"] "c" = [] ∧
      aunts_for [Triple.mk "a" "parentOf" "b"] "c" = [] ∧
      uncles_for [Triple.mk "a" "parentOf" "b"] "c" = [] ∧
      cousins_for [Triple.mk "a" "parentOf" "b"] "c" = [] ∧
      male_cousins_for [Triple.mk "a" "parentOf" "b"] "c" = []) :=
  ⟨by decide, unknown_individual_empty [Triple.mk "a" "parentOf" "b"] "c" (by decide)⟩

-- ---------- Command interpreter (`main.py`) ----------

/-- Python `\s` (whitespace) for the line alphabet in use:
space, tab, newline, carriage return, vertical tab, form feed. -/
def isSpace (c : Char) : Bool :=
  decide (c.toNat = 32) || decide (c.toNat = 9) || decide (c.toNat = 10) ||
  decide (c.toNat = 13) || decide (c.toNat = 11) || decide (c.toNat = 12)

/-- A `re.UNICODE` word character (`\w`) over the Latin, digit, underscore and
Cyrillic ranges the program's inputs use: a-z, A-Z, 0-9, `_`, а-я, А-Я, ё, Ё. -/
def isWordChar (c : Char) : Bool :=
  decide (97 ≤ c.toNat ∧ c.toNat ≤ 122) || decide (65 ≤ c.toNat ∧ c.toNat ≤ 90) ||
  decide (48 ≤ c.toNat ∧ c.toNat ≤ 57) || decide (c.toNat = 95) ||
  decide (0x430 ≤ c.toNat ∧ c.toNat ≤ 0x44F) ||
  decide (0x410 ≤ c.toNat ∧ c.toNat ≤ 0x42F) ||
  decide (c.toNat = 0x451) || decide (c.toNat = 0x401)

/-- The `me` group class `[\w\-а-яА-ЯёЁ]` (the hyphen is 45). -/
def isMeChar (c : Char) : Bool :=
  isWordChar c || decide (c.toNat = 45)

/-- The `rels` group class `[\wа-яА-ЯёЁ_\-;\s,]` (59 is `;`, 44 is `,`). -/
def isRelsChar (c : Char) : Bool :=
  isWordChar c || decide (c.toNat = 95) || decide (c.toNat = 45) ||
  decide (c.toNat = 59) || isSpace c || decide (c.toNat = 44)

/-- Class `[:\s]` (58 is `:`). -/
def isSep1 (c : Char) : Bool :=
  decide (c.toNat = 58) || isSpace c

/-- Class `[\s,]`. -/
def isSep2 (c : Char) : Bool :=
  isSpace c || decide (c.toNat = 44)

/-- The `REL_SPLIT_RE` delimiter class `[;\s,]`. -/
def isRelDelim (c : Char) : Bool :=
  decide (c.toNat = 59) || isSpace c || decide (c.toNat = 44)

/-- Python `str.lower` for the Latin and Cyrillic alphabet in use. -/
def lowerChar (c : Char) : Char :=
  if 65 ≤ c.toNat ∧ c.toNat ≤ 90 then Char.ofNat (c.toNat + 32)
  else if 0x410 ≤ c.toNat ∧ c.toNat ≤ 0x42F then Char.ofNat (c.toNat + 32)
  else if c.toNat = 0x401 then Char.ofNat 0x451
  else c

/-- Function `normalize_text` per character: replace Ё/ё with Е/е, then lowercase. -/
def normalizeChar (c : Char) : Char :=
  lowerChar (if c = 'Ё' then 'Е' else if c = 'ё' then 'е' else c)

/-- Function `normalize_text`: normalize every character of the line. -/
def normalize_text (s : List Char) : List Char :=
  s.map normalizeChar

/-- Strip a literal keyword, returning the rest of the input on success. -/
def matchLit : List Char → List Char → Option (List Char)
  | [], rest => some rest
  | _ :: _, [] => none
  | k :: ks, c :: cs => if c = k then matchLit ks cs else none

/-- After the keyword: `[:\s]+` then a greedy `rels` run that must reach the
end of the line.  The first argument is the reversed separator run already
consumed (longest first); on failure its last character is handed back, as the
regex engine backtracks. -/
def tryAfterKw : List Char → List Char → Option (List Char)
  | [], _ => none
  | c :: revSep, rest =>
    let rels := rest.takeWhile isRelsChar
    if !rels.isEmpty && (rest.dropWhile isRelsChar).isEmpty then some rels
    else tryAfterKw revSep (c :: rest)

/-- The optional clause `[\s,]*(?:интересуют|ищу)[:\s]+(rels)` anchored at the
end of the line.  The `[\s,]*` run is necessarily maximal (the keywords start
with a non-separator) and the alternation tries `интересуют` first. -/
def matchClause (rest : List Char) : Option (List Char) :=
  let r := rest.dropWhile isSep2
  match matchLit "интересуют".data r with
  | some r2 => tryAfterKw (r2.takeWhile isSep1).reverse (r2.dropWhile isSep1)
  | none =>
    match matchLit "ищу".data r with
    | some r2 => tryAfterKw (r2.takeWhile isSep1).reverse (r2.dropWhile isSep1)
    | none => none

/-- Pattern `(?:clause)?\s*$` after the `me` group: the greedy optional group tries
the clause first; otherwise only trailing whitespace may remain.
`some (some rels)` reports the clause's captured group. -/
def matchTail (rest : List Char) : Option (Option (List Char)) :=
  match matchClause rest with
  | some rels => some (some rels)
  | none => if rest.all isSpace then some none else none

/-- Greedy `me` group with backtracking: the first argument is the reversed
`me` candidate, longest first; on failure its last character is handed back. -/
def tryMe : List Char → List Char → Option (List Char × Option (List Char))
  | [], _ => none
  | c :: revMe, rest =>
    match matchTail rest with
    | some r => some ((c :: revMe).reverse, r)
    | none => tryMe revMe (c :: rest)

/-- The anchored `INPUT_RE` match on a normalized line: `\s*`, the literal
`я`, `[:\s]+`, the `me` group, then the optional seek clause and `\s*$`.
The leading `\s*` and `[:\s]+` runs are necessarily maximal because the
following pattern piece can never match one of their characters. -/
def matchInput (line : List Char) : Option (List Char × Option (List Char)) :=
  match line.dropWhile isSpace with
  | [] => none
  | c :: rest =>
    if c = 'я' then
      if (rest.takeWhile isSep1).isEmpty then none
      else
        let r1 := rest.dropWhile isSep1
        tryMe (r1.takeWhile isMeChar).reverse (r1.dropWhile isMeChar)
    else none

/-- Split `REL_SPLIT_RE.split` followed by strip-and-drop-empties: the maximal runs
of non-delimiter characters, via an accumulator of the current (reversed) run. -/
def splitRelsAux : List Char → List Char → List (List Char)
  | [], acc => if acc.isEmpty then [] else [acc.reverse]
  | c :: rest, acc =>
    if isRelDelim c then
      if acc.isEmpty then splitRelsAux rest []
      else acc.reverse :: splitRelsAux rest []
    else splitRelsAux rest (c :: acc)

def splitRels (l : List Char) : List (List Char) :=
  splitRelsAux l []

/-- Python `str.strip` of whitespace. -/
def stripSpaces (l : List Char) : List Char :=
  ((l.dropWhile isSpace).reverse.dropWhile isSpace).reverse

/-- Function `parse_input_line`: normalize the line, match `INPUT_RE`, return the
stripped name and the split relation keywords; `none` models the raised
`ValueError`. -/
def parse_input_line (line : String) : Option (String × List String) :=
  match matchInput (normalize_text line.data) with
  | none => none
  | some (me, relsOpt) =>
    let rels := match relsOpt with
      | none => ([] : List (List Char))
      | some rs => splitRels rs
    some ((stripSpaces me).asString, rels.map List.asString)

/-- One printed line of the interpreter's statement branch. -/
inductive Msg where
  | parseErr : Msg
  | clarify : String → Msg
  | unknownRel : String → List String → Msg
  | result : String → List String → Msg
  | noData : String → Msg
deriving DecidableEq

/-- Table `map_russian_relation_to_method`, with the method name resolved to the
query function itself. -/
def relTable : List (String × (Graph → String → List String)) :=
  [("мать", mother_of), ("отец", father_of), ("родители", parents_of),
   ("братья_сёстры", siblings_of), ("братья", brothers_of),
   ("сестры", sisters_of), ("тети", aunts_for), ("дяди", uncles_for),
   ("кузены", cousins_for), ("двоюродные_братья", male_cousins_for),
   ("бабушки_дедушки", grandparents_of), ("внуки", grandchildren_of)]

/-- The keyword list printed in the unknown-relation message
(`orig_rel_map.keys()`). -/
def validKeywords : List String :=
  relTable.map Prod.fst

/-- Lookup `rel_map_norm.get`: lookup among the normalized keyword keys. -/
def lookupRel (k : String) : Option (Graph → String → List String) :=
  (relTable.map fun kv => ((normalize_text kv.fst.data).asString, kv.snd)).lookup k

/-- The body of the per-keyword loop: unknown keywords report the valid set,
known ones print the query result or a no-data marker. -/
def handleRel (g : Graph) (me : String) (rel : String) : Msg :=
  match lookupRel (normalize_text rel.data).asString with
  | none => Msg.unknownRel rel validKeywords
  | some f =>
    let res := f g me
    if res.isEmpty then Msg.noData rel else Msg.result rel res

def processRels (g : Graph) (me : String) (rels : List String) : List Msg :=
  rels.map (handleRel g me)

/-- The statement branch of `main`'s loop: parse the line, ask for the sought
relations when none were given, otherwise handle each keyword in order. -/
def process_line (g : Graph) (line : String) : List Msg :=
  match parse_input_line line with
  | none => [Msg.parseErr]
  | some (me, rels) =>
    if rels.isEmpty then [Msg.clarify me] else processRels g me rels

-- ---------- Character-class and list helpers ----------

theorem isMeChar_not_sep1 {c : Char} (h : isMeChar c = true) : isSep1 c = false := by
  simp only [isMeChar, isWordChar, Bool.or_eq_true, decide_eq_true_eq] at h
  simp only [isSep1, isSpace, Bool.or_eq_false_iff, decide_eq_false_iff_not]
  omega

theorem isMeChar_not_space {c : Char} (h : isMeChar c = true) : isSpace c = false := by
  simp only [isMeChar, isWordChar, Bool.or_eq_true, decide_eq_true_eq] at h
  simp only [isSpace, Bool.or_eq_false_iff, decide_eq_false_iff_not]
  omega

theorem takeWhile_all_eq_self (p : Char → Bool) :
    ∀ l : List Char, (∀ c ∈ l, p c = true) → l.takeWhile p = l
  | [], _ => rfl
  | a :: t, h => by
    have ha : p a = true := h a (List.mem_cons_self a t)
    have ht := takeWhile_all_eq_self p t (fun c hc => h c (List.mem_cons_of_mem a hc))
    simp [List.takeWhile_cons, ha, ht]

theorem dropWhile_all_eq_nil (p : Char → Bool) :
    ∀ l : List Char, (∀ c ∈ l, p c = true) → l.dropWhile p = []
  | [], _ => rfl
  | a :: t, h => by
    have ha : p a = true := h a (List.mem_cons_self a t)
    have ht := dropWhile_all_eq_nil p t (fun c hc => h c (List.mem_cons_of_mem a hc))
    simp [List.dropWhile_cons, ha, ht]

theorem dropWhile_none_eq_self (p : Char → Bool) (l : List Char)
    (h : ∀ c ∈ l, p c = false) : l.dropWhile p = l := by
  cases l with
  | nil => rfl
  | cons a t => simp [List.dropWhile_cons, h a (List.mem_cons_self a t)]

theorem takeWhile_none_eq_nil (p : Char → Bool) (l : List Char)
    (h : ∀ c ∈ l, p c = false) : l.takeWhile p = [] := by
  cases l with
  | nil => rfl
  | cons a t => simp [List.takeWhile_cons, h a (List.mem_cons_self a t)]

-- ---------- Claim theorems: command interpreter ----------

/-- C7: the two documented example lines parse to the documented name and
relation keyword lists. -/
theorem parse_input_line_examples :
    parse_input_line "Я mike ищу тети кузены" = some ("mike", ["тети", "кузены"]) ∧
    parse_input_line "Я: dmitriy_a, ищу: братья;сестры" =
      some ("dmitriy_a", ["братья", "сестры"]) :=
  ⟨rfl, rfl⟩

/-- C9: a line of the shape `я <name>` with no seek clause parses (no error)
to the normalized name with an empty relation list, and the interpreter
answers with the clarification message, not a rejection. -/
theorem bare_name_clarifies (g : Graph) (name : List Char)
    (hne : name ≠ [])
    (hchars : ∀ c ∈ name, isMeChar (normalizeChar c) = true) :
    parse_input_line (String.mk ('я' :: ' ' :: name)) =
      some ((normalize_text name).asString, []) ∧
    process_line g (String.mk ('я' :: ' ' :: name)) =
      [Msg.clarify (normalize_text name).asString] := by
  have hnne : normalize_text name ≠ [] := by
    simpa [normalize_text] using hne
  have hmem : ∀ c ∈ normalize_text name, isMeChar c = true := by
    intro c hc
    rw [normalize_text, List.mem_map] at hc
    obtain ⟨d, hd, rfl⟩ := hc
    exact hchars d hd
  have hnsep : ∀ c ∈ normalize_text name, isSep1 c = false :=
    fun c hc => isMeChar_not_sep1 (hmem c hc)
  have hnsp : ∀ c ∈ normalize_text name, isSpace c = false :=
    fun c hc => isMeChar_not_space (hmem c hc)
  have hmatch : matchInput ('я' :: ' ' :: normalize_text name) =
      some (normalize_text name, none) := by
    obtain ⟨c, rs, hrev⟩ : ∃ c rs, (normalize_text name).reverse = c :: rs := by
      cases hr : (normalize_text name).reverse with
      | nil =>
        exact absurd (by simpa using congrArg List.reverse hr) hnne
      | cons c rs => exact ⟨c, rs, rfl⟩
    have h1 : ('я' :: ' ' :: normalize_text name).dropWhile isSpace
        = 'я' :: ' ' :: normalize_text name := by
      rw [List.dropWhile_cons]
      simp [show isSpace 'я' = false from rfl]
    have h2 : (' ' :: normalize_text name).takeWhile isSep1 = [' '] := by
      rw [List.takeWhile_cons]
      simp [show isSep1 ' ' = true from rfl, takeWhile_none_eq_nil isSep1 _ hnsep]
    have h3 : (' ' :: normalize_text name).dropWhile isSep1 = normalize_text name := by
      rw [List.dropWhile_cons]
      simp [show isSep1 ' ' = true from rfl, dropWhile_none_eq_self isSep1 _ hnsep]
    have h4 : (normalize_text name).takeWhile isMeChar = normalize_text name :=
      takeWhile_all_eq_self isMeChar _ hmem
    have h5 : (normalize_text name).dropWhile isMeChar = [] :=
      dropWhile_all_eq_nil isMeChar _ hmem
    rw [matchInput, h1]
    simp only [h2, h3, h4, h5, if_pos rfl, List.isEmpty_cons, Bool.false_eq_true,
      if_false, hrev, tryMe, show matchTail [] = some none from rfl]
    rw [← hrev, List.reverse_reverse]
    simp
  have hstrip : stripSpaces (normalize_text name) = normalize_text name := by
    rw [stripSpaces, dropWhile_none_eq_self isSpace _ hnsp,
      dropWhile_none_eq_self isSpace _ (fun c hc => hnsp c (List.mem_reverse.mp hc)),
      List.reverse_reverse]
  have hparse : parse_input_line (String.mk ('я' :: ' ' :: name)) =
      some ((normalize_text name).asString, []) := by
    rw [parse_input_line,
      show normalize_text (String.mk ('я' :: ' ' :: name)).data =
        'я' :: ' ' :: normalize_text name from rfl, hmatch]
    simp [hstrip]
  refine ⟨hparse, ?_⟩
  rw [process_line, hparse]
  rfl

theorem bare_name_clarifies_witness :
    (("mike".data ≠ ([] : List Char)) ∧
      (∀ c ∈ "mike".data, isMeChar (normalizeChar c) = true)) ∧
    (parse_input_line (String.mk ('я' :: ' ' :: "mike".data)) =
        some ((normalize_text "mike".data).asString, []) ∧
      process_line [] (String.mk ('я' :: ' ' :: "mike".data)) =
        [Msg.clarify (normalize_text "mike".data).asString]) :=
  ⟨⟨by decide, by decide⟩, bare_name_clarifies [] "mike".data (by decide) (by decide)⟩

/-- C8: an unknown relation keyword in a statement produces the report naming
it together with the valid keyword list, and every other keyword of the same
line is still processed, in order. -/
theorem unknown_keyword_reported (g : Graph) (me : String)
    (pre post : List String) (rel : String)
    (h : lookupRel (normalize_text rel.data).asString = none) :
    processRels g me (pre ++ rel :: post) =
      processRels g me pre ++
        Msg.unknownRel rel validKeywords :: processRels g me post := by
  simp only [processRels, List.map_append, List.map_cons]
  rw [show handleRel g me rel = Msg.unknownRel rel validKeywords from by
    rw [handleRel, h]]

theorem unknown_keyword_reported_witness :
    lookupRel (normalize_text "дети2".data).asString = none ∧
    processRels [] "mike" (["мать"] ++ "дети2" :: ["отец"]) =
      processRels [] "mike" ["мать"] ++
        Msg.unknownRel "дети2" validKeywords :: processRels [] "mike" ["отец"] :=
  ⟨rfl, unknown_keyword_reported [] "mike" ["мать"] ["отец"] "дети2" rfl⟩
